import Mathlib

/-!
Shallow embedding of the `byteblock` Go package.

The package frames byte blocks as `[length:int64][offset:int64][padding:
offset bytes][payload: length bytes]`, written sequentially by
`ByteBlockWriter` and decoded sequentially by `ByteBlockSlicer`.

Modelling conventions:
* Go `int64` values are modelled as `Int`; the byte-level codec
  (`fillInt64` / `readInt64`) applies the two's-complement reductions
  explicitly (`% 2^64`), so 64-bit wrap-around at the codec is faithful.
* Go `[]byte` is modelled as `List Nat` (each element a byte value).
* The writer's sink is an in-memory buffer (as in the package's tests,
  `bytes.Buffer`), which accepts every write in full and never fails;
  the sink's contents are the `out` field of the writer state.
* Go's `%` on `int64` truncates toward zero, hence `Int.tmod` in
  `alignOffset`.
* A Go runtime panic (out-of-range slice expression) is modelled as a
  distinguished result (`RawSliceResult.panic`, and `none` at the level
  of `Slice`), never as a returned value.
-/

/-! ## Codec: fillInt64 / readInt64 -/

/-- One iteration per byte of the Go loop
`for i := 0; i < 8; i++ { out[i] = byte(n); n >>= 8 }`:
`byte(n)` is the low byte (`n % 256`, two's complement truncation) and
`n >>= 8` is an arithmetic shift, i.e. floor division by 256. -/
def fillInt64Aux : Nat → Int → List Nat
  | 0, _ => []
  | k+1, n => (n % 256).toNat :: fillInt64Aux k (n / 256)

/-- Go `fillInt64(n, out)`: stores the 64-bit signed integer `n`
least-significant-byte-first into 8 bytes. -/
def fillInt64 (n : Int) : List Nat :=
  fillInt64Aux 8 n

/-- Little-endian accumulation of a byte list (the value built by the Go
loop `n |= int64(data[i]) << uint(8*i)` before sign interpretation). -/
def bytesToNat : List Nat → Nat
  | [] => 0
  | b :: rest => b + 256 * bytesToNat rest

/-- Go `readInt64(data)`: reads the first 8 bytes of `data`
least-significant-byte-first and reinterprets the 64-bit pattern as a
signed `int64` (two's complement). -/
def readInt64 (data : List Nat) : Int :=
  let u : Nat := bytesToNat (data.take 8) % 2 ^ 64
  if u < 2 ^ 63 then (u : Int) else (u : Int) - 2 ^ 64

/-! ## Aligner -/

/-- Go `alignOffset(align, pos)`: the padding needed so that
`pos + result` is a multiple of `align`; Go's `%` truncates toward zero
(`Int.tmod`). -/
def alignOffset (align pos : Int) : Int :=
  if align ≤ 1 then 0
  else if Int.tmod pos align = 0 then 0 else align - Int.tmod pos align

/-! ## Writer (incremental variant: NewBlock / Append / Write) -/

/-- Errors a `ByteBlockWriter` can latch (the sink, an in-memory
buffer, never fails). -/
inductive WriterError where
  | ErrNewBlockBeforeFinish
  | ErrWriteMoreThanRequested
deriving DecidableEq, Repr

/-- State of a Go `ByteBlockWriter`: the bytes accumulated in the sink
(`out`), the running counters `numBytesWritten` and `numBytesLeft`, and
the latched error. -/
structure ByteBlockWriter where
  out : List Nat
  numBytesWritten : Int
  numBytesLeft : Int
  err : Option WriterError
deriving DecidableEq, Repr

/-- Go `NewByteBlockWriter(w)`: fresh writer over an empty sink. -/
def NewByteBlockWriter : ByteBlockWriter :=
  ⟨[], 0, 0, none⟩

/-- Go `(*ByteBlockWriter).rawWrite`: appends `data` to the sink and
updates `numBytesWritten` and `numBytesLeft` by the number of bytes the
sink accepted (all of them, for an in-memory buffer). -/
def ByteBlockWriter.rawWrite (w : ByteBlockWriter) (data : List Nat) :
    ByteBlockWriter :=
  { w with
    out := w.out ++ data
    numBytesWritten := w.numBytesWritten + data.length
    numBytesLeft := w.numBytesLeft - data.length }

/-- Go `(*ByteBlockWriter).NewBlock(align, length)`: checks the latched
error and the unfinished-block condition, then writes the length field,
the offset field and `offset` zero bytes of padding, and sets
`numBytesLeft` to `length`. -/
def ByteBlockWriter.NewBlock (w : ByteBlockWriter) (align length : Int) :
    ByteBlockWriter × Option WriterError :=
  match w.err with
  | some e => (w, some e)
  | none =>
    if 0 < w.numBytesLeft then
      ({ w with err := some .ErrNewBlockBeforeFinish },
        some .ErrNewBlockBeforeFinish)
    else
      let w1 := w.rawWrite (fillInt64 length)
      let offset := alignOffset align (w1.numBytesWritten + 8)
      let w2 := w1.rawWrite (fillInt64 offset)
      let w3 := w2.rawWrite (List.replicate offset.toNat 0)
      ({ w3 with numBytesLeft := length }, none)

/-- Go `(*ByteBlockWriter).Append(data)`: checks the latched error and
the remaining-length counter, then writes `data` verbatim (rawWrite
decrements `numBytesLeft` by the written length). -/
def ByteBlockWriter.Append (w : ByteBlockWriter) (data : List Nat) :
    ByteBlockWriter × Option WriterError :=
  match w.err with
  | some e => (w, some e)
  | none =>
    if w.numBytesLeft < (data.length : Int) then
      ({ w with err := some .ErrWriteMoreThanRequested },
        some .ErrWriteMoreThanRequested)
    else
      (w.rawWrite data, none)

/-- Go `(*ByteBlockWriter).Write(data, align)`: `NewBlock` for
`len(data)` followed by `Append data`, stopping at the first error. -/
def ByteBlockWriter.Write (w : ByteBlockWriter) (data : List Nat)
    (align : Int) : ByteBlockWriter × Option WriterError :=
  match w.NewBlock align data.length with
  | (w1, some e) => (w1, some e)
  | (w1, none) => w1.Append data

/-- Writes a sequence of `(payload, align)` pairs with
`ByteBlockWriter.Write`, threading the writer state. -/
def writeSeq (w : ByteBlockWriter) : List (List Nat × Int) → ByteBlockWriter
  | [] => w
  | (d, a) :: rest => writeSeq (w.Write d a).1 rest

/-! ## Writer (one-shot variant, from the standalone source file) -/

/-- State of the standalone one-shot writer variant (the source file
whose `ByteBlockWriter` has no `numBytesLeft` field and only `Write`). -/
structure OneShotWriter where
  out : List Nat
  numBytesWritten : Int
  err : Option WriterError
deriving DecidableEq, Repr

/-- The one-shot variant's `rawWrite` (no `numBytesLeft` to update). -/
def OneShotWriter.rawWrite (w : OneShotWriter) (data : List Nat) :
    OneShotWriter :=
  { w with
    out := w.out ++ data
    numBytesWritten := w.numBytesWritten + data.length }

/-- The one-shot variant's `Write(data, align)`: length field, offset
field, padding, then the payload, in one call. -/
def OneShotWriter.Write (w : OneShotWriter) (data : List Nat)
    (align : Int) : OneShotWriter × Option WriterError :=
  match w.err with
  | some e => (w, some e)
  | none =>
    let w1 := w.rawWrite (fillInt64 data.length)
    let offset := alignOffset align (w1.numBytesWritten + 8)
    let w2 := w1.rawWrite (fillInt64 offset)
    let w3 := w2.rawWrite (List.replicate offset.toNat 0)
    let w4 := w3.rawWrite data
    (w4, none)

/-! ## Slicer -/

/-- The only error a `ByteBlockSlicer` can latch. -/
inductive SlicerError where
  | ErrNotEnoughBytes
deriving DecidableEq, Repr

/-- State of a Go `ByteBlockSlicer`: the backing buffer, the cursor
`numBytesSliced`, and the latched error. -/
structure ByteBlockSlicer where
  data : List Nat
  numBytesSliced : Int
  err : Option SlicerError
deriving DecidableEq, Repr

/-- Go `NewByteBlockSlicer(data)`. -/
def NewByteBlockSlicer (data : List Nat) : ByteBlockSlicer :=
  ⟨data, 0, none⟩

/-- Outcome of Go `(*ByteBlockSlicer).rawSlice(n)`: either the `n`-byte
sub-view and the advanced state, the `ErrNotEnoughBytes` error (state
unchanged), or a runtime panic of the slice expression
`r.data[r.numBytesSliced : r.numBytesSliced+n]` (which Go raises when
the bounds are not `0 ≤ low ≤ high`). -/
inductive RawSliceResult where
  | ok (bytes : List Nat) (r : ByteBlockSlicer)
  | errNotEnough
  | panic
deriving DecidableEq, Repr

/-- Go `(*ByteBlockSlicer).rawSlice(n)`: bounds check against the end of
the buffer, then the slice expression. The check only rejects
`numBytesSliced + n > len(data)`; a negative `n` (or a negative cursor)
passes it and then makes the slice expression panic. -/
def ByteBlockSlicer.rawSlice (r : ByteBlockSlicer) (n : Int) :
    RawSliceResult :=
  if (r.data.length : Int) < r.numBytesSliced + n then .errNotEnough
  else if 0 ≤ r.numBytesSliced ∧ 0 ≤ n then
    .ok ((r.data.drop r.numBytesSliced.toNat).take n.toNat)
      { r with numBytesSliced := r.numBytesSliced + n }
  else .panic

/-- What one call to Go `(*ByteBlockSlicer).Slice()` can return: a
payload view, the `io.EOF` sentinel, or an error. -/
inductive SliceResult where
  | ok (payload : List Nat)
  | eof
  | error (e : SlicerError)
deriving DecidableEq, Repr

/-- Go `(*ByteBlockSlicer).Slice()`: latched-error check, end-of-stream
check, then the four `rawSlice` calls (length field, offset field,
padding, payload). Failures of the first three are latched into
`r.err`; a failure of the final payload read is returned directly
(`return r.rawSlice(length)`) without latching. `none` models a Go
runtime panic inside `rawSlice`. -/
def ByteBlockSlicer.Slice (r : ByteBlockSlicer) :
    Option (SliceResult × ByteBlockSlicer) :=
  match r.err with
  | some e => some (.error e, r)
  | none =>
    if (r.data.length : Int) ≤ r.numBytesSliced then some (.eof, r)
    else
      match r.rawSlice 8 with
      | .panic => none
      | .errNotEnough =>
        some (.error .ErrNotEnoughBytes, { r with err := some .ErrNotEnoughBytes })
      | .ok b r1 =>
        let length := readInt64 b
        match r1.rawSlice 8 with
        | .panic => none
        | .errNotEnough =>
          some (.error .ErrNotEnoughBytes, { r1 with err := some .ErrNotEnoughBytes })
        | .ok b2 r2 =>
          let offset := readInt64 b2
          match r2.rawSlice offset with
          | .panic => none
          | .errNotEnough =>
            some (.error .ErrNotEnoughBytes, { r2 with err := some .ErrNotEnoughBytes })
          | .ok _ r3 =>
            match r3.rawSlice length with
            | .panic => none
            | .errNotEnough => some (.error .ErrNotEnoughBytes, r3)
            | .ok d r4 => some (.ok d, r4)

/-- Runs `Slice` `n` times, collecting the payloads; `none` if any call
does not return a payload. -/
def sliceN (r : ByteBlockSlicer) : Nat → Option (List (List Nat) × ByteBlockSlicer)
  | 0 => some ([], r)
  | k+1 =>
    match r.Slice with
    | some (.ok d, r1) =>
      match sliceN r1 k with
      | some (ds, r2) => some (d :: ds, r2)
      | none => none
    | _ => none

/-! ## Stream shape (derived, for stating the writer's output) -/

/-- The frame the writer emits for payload `d` at alignment `a` when its
`numBytesWritten` counter is `p`: length field, offset field, padding,
payload. -/
def frameFor (p : Int) (d : List Nat) (a : Int) : List Nat :=
  fillInt64 d.length ++ fillInt64 (alignOffset a (p + 16)) ++
    List.replicate (alignOffset a (p + 16)).toNat 0 ++ d

/-- The byte stream the writer emits for a sequence of pairs, starting
with `numBytesWritten = p`. -/
def streamFrom (p : Int) : List (List Nat × Int) → List Nat
  | [] => []
  | (d, a) :: rest =>
    frameFor p d a ++ streamFrom (p + (frameFor p d a).length) rest

/-- Length of the stream for the first `k` frames, starting at `p`
(frame boundaries, relative to the stream start). -/
def boundaryLen (p : Int) : List (List Nat × Int) → Nat → Nat
  | _, 0 => 0
  | [], _+1 => 0
  | (d, a) :: rest, k+1 =>
    (frameFor p d a).length + boundaryLen (p + (frameFor p d a).length) rest k

/-- Number of frames that fit entirely within the first `m` bytes of
the stream starting at `p`. -/
def cutCount (p : Int) (m : Nat) : List (List Nat × Int) → Nat
  | [] => 0
  | (d, a) :: rest =>
    if (frameFor p d a).length ≤ m then
      cutCount (p + (frameFor p d a).length) (m - (frameFor p d a).length) rest + 1
    else 0

/-! ## Codec lemmas -/

theorem fillInt64Aux_length (k : Nat) (n : Int) : (fillInt64Aux k n).length = k := by
  induction k generalizing n with
  | zero => rfl
  | succ k ih => simp [fillInt64Aux, ih]

theorem fillInt64_length (n : Int) : (fillInt64 n).length = 8 :=
  fillInt64Aux_length 8 n

theorem bytesToNat_fillInt64Aux (k : Nat) (n : Int) :
    (bytesToNat (fillInt64Aux k n) : Int) = n % 2 ^ (8 * k) := by
  induction k generalizing n with
  | zero => simp [fillInt64Aux, bytesToNat, Int.emod_one]
  | succ k ih =>
    have h256 : ((n % 256).toNat : Int) = n % 256 :=
      Int.toNat_of_nonneg (Int.emod_nonneg n (by norm_num))
    have hr0 : 0 ≤ n % 256 := Int.emod_nonneg n (by norm_num)
    have hr1 : n % 256 < 256 := Int.emod_lt_of_pos n (by norm_num)
    have hM : (0 : Int) < 2 ^ (8 * k) := by positivity
    have hq0 : 0 ≤ n / 256 % 2 ^ (8 * k) := Int.emod_nonneg _ (by positivity)
    have hq1 : n / 256 % 2 ^ (8 * k) < 2 ^ (8 * k) := Int.emod_lt_of_pos _ hM
    have hsplit : n = 256 * (n / 256) + n % 256 := (Int.ediv_add_emod n 256).symm
    have hsplit2 : n / 256 =
        2 ^ (8 * k) * (n / 256 / 2 ^ (8 * k)) + n / 256 % 2 ^ (8 * k) :=
      (Int.ediv_add_emod (n / 256) (2 ^ (8 * k))).symm
    have hpow : (2 : Int) ^ (8 * (k + 1)) = 256 * 2 ^ (8 * k) := by ring
    have hkey : n % 2 ^ (8 * (k + 1)) = n % 256 + 256 * (n / 256 % 2 ^ (8 * k)) := by
      rw [hpow]
      have hrepr : n = n % 256 + 256 * (n / 256 % 2 ^ (8 * k)) +
          256 * 2 ^ (8 * k) * (n / 256 / 2 ^ (8 * k)) := by linarith
      calc n % (256 * 2 ^ (8 * k))
          = (n % 256 + 256 * (n / 256 % 2 ^ (8 * k)) +
              256 * 2 ^ (8 * k) * (n / 256 / 2 ^ (8 * k))) % (256 * 2 ^ (8 * k)) := by
            rw [← hrepr]
        _ = (n % 256 + 256 * (n / 256 % 2 ^ (8 * k))) % (256 * 2 ^ (8 * k)) :=
            Int.add_mul_emod_self_left _ _ _
        _ = n % 256 + 256 * (n / 256 % 2 ^ (8 * k)) :=
            Int.emod_eq_of_lt (by linarith) (by nlinarith)
    simp only [fillInt64Aux, bytesToNat]
    push_cast
    rw [h256, ih, hkey]

theorem readInt64_fillInt64 (n : Int) (h0 : -(2 ^ 63) ≤ n) (h1 : n < 2 ^ 63) :
    readInt64 (fillInt64 n) = n := by
  have hlen : (fillInt64 n).length = 8 := fillInt64_length n
  have htake : (fillInt64 n).take 8 = fillInt64 n := by
    rw [← hlen, List.take_length]
  have hbytes : (bytesToNat (fillInt64 n) : Int) = n % 2 ^ 64 :=
    bytesToNat_fillInt64Aux 8 n
  have hm0 : 0 ≤ n % 2 ^ 64 := Int.emod_nonneg n (by norm_num)
  have hm1 : n % 2 ^ 64 < 2 ^ 64 := Int.emod_lt_of_pos n (by norm_num)
  have hsmall : bytesToNat (fillInt64 n) % 2 ^ 64 = bytesToNat (fillInt64 n) := by
    apply Nat.mod_eq_of_lt
    have : (bytesToNat (fillInt64 n) : Int) < 2 ^ 64 := by rw [hbytes]; exact hm1
    exact_mod_cast this
  rcases le_or_lt 0 n with hpos | hneg
  · have hmod : n % 2 ^ 64 = n := Int.emod_eq_of_lt hpos (by linarith)
    have hval : (bytesToNat (fillInt64 n) : Int) = n := by rw [hbytes, hmod]
    simp only [readInt64, htake, hsmall]
    rw [if_pos]
    · exact hval
    · have : (bytesToNat (fillInt64 n) : Int) < 2 ^ 63 := by rw [hval]; exact h1
      exact_mod_cast this
  · have hmod : n % 2 ^ 64 = n + 2 ^ 64 := by
      have h1' : n + 2 ^ 64 = n + 2 ^ 64 * 1 := by ring
      have h2' : (n + 2 ^ 64 * 1) % 2 ^ 64 = n % 2 ^ 64 :=
        Int.add_mul_emod_self_left n (2 ^ 64) 1
      have h3' : (n + 2 ^ 64) % 2 ^ 64 = n + 2 ^ 64 :=
        Int.emod_eq_of_lt (by linarith) (by linarith)
      rw [← h3', h1', h2']
    have hval : (bytesToNat (fillInt64 n) : Int) = n + 2 ^ 64 := by rw [hbytes, hmod]
    simp only [readInt64, htake, hsmall]
    rw [if_neg]
    · rw [hval]; ring
    · intro hlt
      have : (bytesToNat (fillInt64 n) : Int) < 2 ^ 63 := by exact_mod_cast hlt
      rw [hval] at this
      linarith

/-! ## Aligner lemmas -/

theorem alignOffset_of_le_one {a : Int} (p : Int) (h : a ≤ 1) :
    alignOffset a p = 0 := by
  simp [alignOffset, h]

theorem alignOffset_nonneg (a p : Int) : 0 ≤ alignOffset a p := by
  unfold alignOffset
  split
  · exact le_refl 0
  · next h =>
    have ha : (0 : Int) < a := by omega
    have := Int.tmod_lt_of_pos p ha
    split <;> omega

theorem alignOffset_lt {a : Int} (p : Int) (ha : 1 < a) (hp : 0 ≤ p) :
    alignOffset a p < a := by
  unfold alignOffset
  rw [if_neg (by omega)]
  have h1 := Int.tmod_nonneg a hp
  have h2 := Int.tmod_lt_of_pos p (show (0 : Int) < a by omega)
  split <;> omega

theorem alignOffset_emod {a : Int} (p : Int) (ha : 1 < a) :
    (p + alignOffset a p) % a = 0 := by
  unfold alignOffset
  rw [if_neg (by omega)]
  have hsplit := Int.tdiv_add_tmod p a
  split
  · next h =>
    have : p + 0 = a * p.tdiv a := by omega
    rw [this]
    exact Int.mul_emod_right a _
  · have : p + (a - p.tmod a) = a * (p.tdiv a + 1) := by ring_nf; omega
    rw [this]
    exact Int.mul_emod_right a _

/-! ## Writer lemmas -/

theorem NewBlock_latched (w : ByteBlockWriter) (a l : Int) (e : WriterError)
    (h : w.err = some e) : w.NewBlock a l = (w, some e) := by
  simp [ByteBlockWriter.NewBlock, h]

theorem Append_latched (w : ByteBlockWriter) (d : List Nat) (e : WriterError)
    (h : w.err = some e) : w.Append d = (w, some e) := by
  simp [ByteBlockWriter.Append, h]

theorem Write_latched (w : ByteBlockWriter) (d : List Nat) (a : Int)
    (e : WriterError) (h : w.err = some e) : w.Write d a = (w, some e) := by
  unfold ByteBlockWriter.Write
  rw [NewBlock_latched w a d.length e h]

theorem NewBlock_blockOpen (w : ByteBlockWriter) (a l : Int)
    (h : w.err = none) (hleft : 0 < w.numBytesLeft) :
    w.NewBlock a l = ({ w with err := some .ErrNewBlockBeforeFinish },
      some .ErrNewBlockBeforeFinish) := by
  simp [ByteBlockWriter.NewBlock, h, hleft]

theorem NewBlock_success (w : ByteBlockWriter) (a l : Int)
    (h : w.err = none) (hleft : ¬ 0 < w.numBytesLeft) :
    w.NewBlock a l =
      (⟨w.out ++ fillInt64 l ++ fillInt64 (alignOffset a (w.numBytesWritten + 16)) ++
          List.replicate (alignOffset a (w.numBytesWritten + 16)).toNat 0,
        w.numBytesWritten + 16 + alignOffset a (w.numBytesWritten + 16),
        l, none⟩, none) := by
  have hoff : 0 ≤ alignOffset a (w.numBytesWritten + 16) :=
    alignOffset_nonneg a (w.numBytesWritten + 16)
  simp only [ByteBlockWriter.NewBlock, h, if_neg hleft, ByteBlockWriter.rawWrite,
    fillInt64_length, List.length_replicate]
  have harg : w.numBytesWritten + ((8 : Nat) : Int) + 8 = w.numBytesWritten + 16 := by
    push_cast; ring
  rw [harg]
  simp only [Prod.mk.injEq, ByteBlockWriter.mk.injEq, List.append_assoc]
  and_intros
  all_goals first
    | trivial
    | (rw [Int.toNat_of_nonneg hoff]; push_cast; ring)

theorem Append_overflow (w : ByteBlockWriter) (d : List Nat)
    (h : w.err = none) (hlen : w.numBytesLeft < (d.length : Int)) :
    w.Append d = ({ w with err := some .ErrWriteMoreThanRequested },
      some .ErrWriteMoreThanRequested) := by
  simp [ByteBlockWriter.Append, h, hlen]

theorem Append_success (w : ByteBlockWriter) (d : List Nat)
    (h : w.err = none) (hlen : ¬ w.numBytesLeft < (d.length : Int)) :
    w.Append d =
      (⟨w.out ++ d, w.numBytesWritten + d.length,
        w.numBytesLeft - d.length, none⟩, none) := by
  simp [ByteBlockWriter.Append, h, hlen, ByteBlockWriter.rawWrite]

theorem Write_success (w : ByteBlockWriter) (d : List Nat) (a : Int)
    (h : w.err = none) (hleft : ¬ 0 < w.numBytesLeft) :
    w.Write d a =
      (⟨w.out ++ frameFor w.numBytesWritten d a,
        w.numBytesWritten + 16 + alignOffset a (w.numBytesWritten + 16) + d.length,
        0, none⟩, none) := by
  unfold ByteBlockWriter.Write
  rw [NewBlock_success w a d.length h hleft]
  dsimp only
  rw [Append_success _ d rfl (by simp)]
  simp only [Prod.mk.injEq, ByteBlockWriter.mk.injEq, frameFor, List.append_assoc]
  and_intros
  all_goals first
    | trivial
    | (push_cast; ring)

theorem frameFor_length (p : Int) (d : List Nat) (a : Int) :
    (frameFor p d a).length = 16 + (alignOffset a (p + 16)).toNat + d.length := by
  simp [frameFor, fillInt64_length]
  omega

theorem frameFor_length_int (p : Int) (d : List Nat) (a : Int) :
    ((frameFor p d a).length : Int) =
      16 + alignOffset a (p + 16) + d.length := by
  rw [frameFor_length]
  have := alignOffset_nonneg a (p + 16)
  omega

theorem writeSeq_spec (pairs : List (List Nat × Int)) (w : ByteBlockWriter)
    (h : w.err = none) (hleft : w.numBytesLeft = 0) :
    writeSeq w pairs =
      ⟨w.out ++ streamFrom w.numBytesWritten pairs,
        w.numBytesWritten + (streamFrom w.numBytesWritten pairs).length,
        0, none⟩ := by
  induction pairs generalizing w with
  | nil =>
    simp only [writeSeq, streamFrom, List.append_nil, List.length_nil]
    cases w with
    | mk o nw nl e =>
      simp only at h hleft
      simp [h, hleft]
  | cons pair rest ih =>
    obtain ⟨d, a⟩ := pair
    simp only [writeSeq, streamFrom]
    rw [Write_success w d a h (by omega)]
    rw [ih _ rfl rfl]
    have hfl : w.numBytesWritten + ((frameFor w.numBytesWritten d a).length : Int) =
        w.numBytesWritten + 16 + alignOffset a (w.numBytesWritten + 16) + d.length := by
      rw [frameFor_length_int]; ring
    rw [← hfl]
    simp only [ByteBlockWriter.mk.injEq, List.append_assoc, List.length_append]
    and_intros
    all_goals first
      | trivial
      | (push_cast; ring)

/-! ## Slicer lemmas -/

theorem rawSlice_ok (buf Q : List Nat) (c n : Int) (e : Option SlicerError)
    (hc0 : 0 ≤ c) (hn : 0 ≤ n) (hdrop : buf.drop c.toNat = Q)
    (hle : c + n ≤ (buf.length : Int)) :
    ByteBlockSlicer.rawSlice ⟨buf, c, e⟩ n = .ok (Q.take n.toNat) ⟨buf, c + n, e⟩ := by
  dsimp only [ByteBlockSlicer.rawSlice]
  rw [if_neg (by omega), if_pos ⟨hc0, hn⟩, hdrop]

theorem rawSlice_err (buf : List Nat) (c n : Int) (e : Option SlicerError)
    (h : (buf.length : Int) < c + n) :
    ByteBlockSlicer.rawSlice ⟨buf, c, e⟩ n = .errNotEnough := by
  dsimp only [ByteBlockSlicer.rawSlice]
  rw [if_pos h]

theorem slice_generic (pre d rest : List Nat) (L O : Int)
    (hL63 : L < 2 ^ 63) (hO0 : 0 ≤ O) (hO63 : O < 2 ^ 63)
    (hLlen : L = (d.length : Int)) :
    ByteBlockSlicer.Slice
        ⟨pre ++ (fillInt64 L ++ (fillInt64 O ++ (List.replicate O.toNat 0 ++ (d ++ rest)))),
          (pre.length : Int), none⟩ =
      some (.ok d,
        ⟨pre ++ (fillInt64 L ++ (fillInt64 O ++ (List.replicate O.toNat 0 ++ (d ++ rest)))),
          (pre.length : Int) + 16 + O + L, none⟩) := by
  have hL0 : 0 ≤ L := by rw [hLlen]; positivity
  set A := fillInt64 L with hA
  set B := fillInt64 O with hB
  set C := List.replicate O.toNat (0 : Nat) with hC
  set buf := pre ++ (A ++ (B ++ (C ++ (d ++ rest)))) with hbuf
  have hAlen : A.length = 8 := fillInt64_length L
  have hBlen : B.length = 8 := fillInt64_length O
  have hClen : C.length = O.toNat := List.length_replicate _ _
  have hbuflen : (buf.length : Int) =
      pre.length + 8 + 8 + O + d.length + rest.length := by
    simp only [hbuf, List.length_append, hAlen, hBlen, hClen]
    push_cast
    omega
  have hdrop0 : buf.drop ((pre.length : Int)).toNat = A ++ (B ++ (C ++ (d ++ rest))) := by
    rw [Int.toNat_ofNat, hbuf, List.drop_left]
  have hdrop1 : buf.drop ((pre.length : Int) + 8).toNat = B ++ (C ++ (d ++ rest)) := by
    have h1 : ((pre.length : Int) + 8).toNat = (pre ++ A).length := by
      simp [hAlen]; omega
    rw [h1, hbuf, show pre ++ (A ++ (B ++ (C ++ (d ++ rest)))) =
      (pre ++ A) ++ (B ++ (C ++ (d ++ rest))) from by simp [List.append_assoc],
      List.drop_left]
  have hdrop2 : buf.drop ((pre.length : Int) + 8 + 8).toNat = C ++ (d ++ rest) := by
    have h1 : ((pre.length : Int) + 8 + 8).toNat = ((pre ++ A) ++ B).length := by
      simp [hAlen, hBlen]; omega
    rw [h1, hbuf, show pre ++ (A ++ (B ++ (C ++ (d ++ rest)))) =
      ((pre ++ A) ++ B) ++ (C ++ (d ++ rest)) from by simp [List.append_assoc],
      List.drop_left]
  have hdrop3 : buf.drop ((pre.length : Int) + 8 + 8 + O).toNat = d ++ rest := by
    have h1 : ((pre.length : Int) + 8 + 8 + O).toNat = (((pre ++ A) ++ B) ++ C).length := by
      simp [hAlen, hBlen, hClen]; omega
    rw [h1, hbuf, show pre ++ (A ++ (B ++ (C ++ (d ++ rest)))) =
      (((pre ++ A) ++ B) ++ C) ++ (d ++ rest) from by simp [List.append_assoc],
      List.drop_left]
  have raw1 : ByteBlockSlicer.rawSlice ⟨buf, (pre.length : Int), none⟩ 8 =
      .ok A ⟨buf, (pre.length : Int) + 8, none⟩ := by
    have := rawSlice_ok buf (A ++ (B ++ (C ++ (d ++ rest)))) (pre.length : Int) 8 none
      (by positivity) (by norm_num) hdrop0 (by omega)
    rwa [show ((8 : Int)).toNat = 8 from rfl,
      List.take_append_of_le_length (by omega), ← hAlen, List.take_length] at this
  have raw2 : ByteBlockSlicer.rawSlice ⟨buf, (pre.length : Int) + 8, none⟩ 8 =
      .ok B ⟨buf, (pre.length : Int) + 8 + 8, none⟩ := by
    have := rawSlice_ok buf (B ++ (C ++ (d ++ rest))) ((pre.length : Int) + 8) 8 none
      (by positivity) (by norm_num) hdrop1 (by omega)
    rwa [show ((8 : Int)).toNat = 8 from rfl,
      List.take_append_of_le_length (by omega), ← hBlen, List.take_length] at this
  have raw3 : ByteBlockSlicer.rawSlice ⟨buf, (pre.length : Int) + 8 + 8, none⟩ O =
      .ok C ⟨buf, (pre.length : Int) + 8 + 8 + O, none⟩ := by
    have := rawSlice_ok buf (C ++ (d ++ rest)) ((pre.length : Int) + 8 + 8) O none
      (by positivity) hO0 hdrop2 (by omega)
    rwa [List.take_append_of_le_length (by omega), ← hClen, List.take_length] at this
  have raw4 : ByteBlockSlicer.rawSlice ⟨buf, (pre.length : Int) + 8 + 8 + O, none⟩ L =
      .ok d ⟨buf, (pre.length : Int) + 8 + 8 + O + L, none⟩ := by
    have := rawSlice_ok buf (d ++ rest) ((pre.length : Int) + 8 + 8 + O) L none
      (by omega) hL0 hdrop3 (by omega)
    rwa [show L.toNat = d.length from by omega,
      List.take_append_of_le_length (by omega), List.take_length] at this
  have hreadL : readInt64 A = L := readInt64_fillInt64 L (by omega) hL63
  have hreadO : readInt64 B = O := readInt64_fillInt64 O (by omega) hO63
  have hfin : (pre.length : Int) + 8 + 8 + O + L = (pre.length : Int) + 16 + O + L := by
    ring
  simp only [ByteBlockSlicer.Slice, raw1, raw2, raw3, raw4, hreadL, hreadO,
    if_neg (show ¬ ((buf.length : Int) ≤ (pre.length : Int)) from by omega), hfin]

theorem slice_frame (pre d rest : List Nat) (a : Int)
    (hd : (d.length : Int) < 2 ^ 63) (ha : a < 2 ^ 63) :
    ByteBlockSlicer.Slice
        ⟨pre ++ (frameFor (pre.length : Int) d a ++ rest), (pre.length : Int), none⟩ =
      some (.ok d,
        ⟨pre ++ (frameFor (pre.length : Int) d a ++ rest),
          (pre.length : Int) + ((frameFor (pre.length : Int) d a).length : Int), none⟩) := by
  have hoff0 : 0 ≤ alignOffset a ((pre.length : Int) + 16) := alignOffset_nonneg _ _
  have hoff63 : alignOffset a ((pre.length : Int) + 16) < 2 ^ 63 := by
    by_cases h1 : a ≤ 1
    · rw [alignOffset_of_le_one _ h1]; norm_num
    · exact lt_trans (alignOffset_lt _ (by omega) (by positivity)) ha
  have hshape : frameFor (pre.length : Int) d a ++ rest =
      fillInt64 (d.length : Int) ++ (fillInt64 (alignOffset a ((pre.length : Int) + 16)) ++
        (List.replicate (alignOffset a ((pre.length : Int) + 16)).toNat 0 ++ (d ++ rest))) := by
    simp [frameFor, List.append_assoc]
  have hcur : (pre.length : Int) + ((frameFor (pre.length : Int) d a).length : Int) =
      (pre.length : Int) + 16 + alignOffset a ((pre.length : Int) + 16) + d.length := by
    rw [frameFor_length_int]; ring
  rw [hshape, hcur]
  exact slice_generic pre d rest (d.length : Int) (alignOffset a ((pre.length : Int) + 16))
    hd hoff0 hoff63 rfl

theorem sliceN_stream (pairs : List (List Nat × Int)) (pre : List Nat)
    (h : ∀ pr ∈ pairs, (pr.1.length : Int) < 2 ^ 63 ∧ pr.2 < 2 ^ 63) :
    sliceN ⟨pre ++ streamFrom (pre.length : Int) pairs, (pre.length : Int), none⟩ pairs.length =
      some (pairs.map Prod.fst,
        ⟨pre ++ streamFrom (pre.length : Int) pairs,
          ((pre ++ streamFrom (pre.length : Int) pairs).length : Int), none⟩) := by
  induction pairs generalizing pre with
  | nil => simp [sliceN, streamFrom]
  | cons pair rest ih =>
    obtain ⟨d, a⟩ := pair
    have hda := h (d, a) (List.mem_cons_self _ _)
    simp only [streamFrom, List.length_cons, sliceN]
    rw [slice_frame pre d _ a hda.1 hda.2]
    have hcur : (pre.length : Int) + ((frameFor (pre.length : Int) d a).length : Int) =
        (((pre ++ frameFor (pre.length : Int) d a).length : Nat) : Int) := by
      push_cast [List.length_append]
      ring
    rw [hcur]
    have hassoc : pre ++ (frameFor (pre.length : Int) d a ++
        streamFrom (((pre ++ frameFor (pre.length : Int) d a).length : Int)) rest) =
        (pre ++ frameFor (pre.length : Int) d a) ++
        streamFrom (((pre ++ frameFor (pre.length : Int) d a).length : Int)) rest :=
      (List.append_assoc _ _ _).symm
    rw [hassoc]
    dsimp only
    rw [ih (pre ++ frameFor (pre.length : Int) d a)
      (fun pr hpr => h pr (List.mem_cons_of_mem _ hpr))]
    simp [List.append_assoc]


theorem slice_cut (pre A B C d : List Nat) (L O : Int) (m : Nat)
    (hAlen : A.length = 8) (hBlen : B.length = 8) (hClen : C.length = O.toNat)
    (hreadA : readInt64 A = L) (hreadB : readInt64 B = O)
    (hL : L = (d.length : Int)) (hO0 : 0 ≤ O)
    (hm0 : 0 < m) (hm : m < 16 + O.toNat + d.length) :
    ∃ r', ByteBlockSlicer.Slice
        ⟨pre ++ (A ++ (B ++ (C ++ d))).take m, (pre.length : Int), none⟩ =
      some (.error .ErrNotEnoughBytes, r') := by
  set buf := pre ++ (A ++ (B ++ (C ++ d))).take m with hbuf
  have htm : ((A ++ (B ++ (C ++ d))).take m).length = m := by
    simp only [List.length_take, List.length_append, hAlen, hBlen, hClen]
    omega
  have hbuflen : buf.length = pre.length + m := by
    rw [hbuf, List.length_append, htm]
  have hEOF : ¬ ((buf.length : Int) ≤ (pre.length : Int)) := by
    push_cast [hbuflen]; omega
  rcases Nat.lt_or_ge m 8 with h8 | h8
  · -- cut inside the length field
    have raw1 : ByteBlockSlicer.rawSlice ⟨buf, (pre.length : Int), none⟩ 8 = .errNotEnough :=
      rawSlice_err _ _ _ _ (by push_cast [hbuflen]; omega)
    refine ⟨⟨buf, (pre.length : Int), some .ErrNotEnoughBytes⟩, ?_⟩
    simp only [ByteBlockSlicer.Slice, if_neg hEOF, raw1]
  rcases Nat.lt_or_ge m 16 with h16 | h16
  · -- cut inside the offset field
    have htake : (A ++ (B ++ (C ++ d))).take m = A ++ ((B ++ (C ++ d)).take (m - 8)) := by
      rw [List.take_append_eq_append_take, hAlen, List.take_of_length_le (by omega)]
    have hdrop0 : buf.drop ((pre.length : Int)).toNat =
        A ++ ((B ++ (C ++ d)).take (m - 8)) := by
      rw [Int.toNat_ofNat, hbuf, List.drop_left, htake]
    have raw1 : ByteBlockSlicer.rawSlice ⟨buf, (pre.length : Int), none⟩ 8 =
        .ok A ⟨buf, (pre.length : Int) + 8, none⟩ := by
      have := rawSlice_ok buf (A ++ ((B ++ (C ++ d)).take (m - 8))) (pre.length : Int) 8 none
        (by omega) (by omega) hdrop0 (by push_cast [hbuflen]; omega)
      rwa [show ((8 : Int)).toNat = 8 from rfl,
        List.take_append_of_le_length (by omega), ← hAlen, List.take_length] at this
    have raw2 : ByteBlockSlicer.rawSlice ⟨buf, (pre.length : Int) + 8, none⟩ 8 =
        .errNotEnough :=
      rawSlice_err _ _ _ _ (by push_cast [hbuflen]; omega)
    refine ⟨⟨buf, (pre.length : Int) + 8, some .ErrNotEnoughBytes⟩, ?_⟩
    simp only [ByteBlockSlicer.Slice, if_neg hEOF, raw1, hreadA, raw2]
  rcases Nat.lt_or_ge m (16 + O.toNat) with hpad | hpad
  · -- cut inside the padding
    have htake : (A ++ (B ++ (C ++ d))).take m = A ++ (B ++ ((C ++ d).take (m - 16))) := by
      rw [List.take_append_eq_append_take, hAlen, List.take_of_length_le (by omega),
        List.take_append_eq_append_take, hBlen, List.take_of_length_le (by omega),
        show m - 8 - 8 = m - 16 from by omega]
    have hdrop0 : buf.drop ((pre.length : Int)).toNat =
        A ++ (B ++ ((C ++ d).take (m - 16))) := by
      rw [Int.toNat_ofNat, hbuf, List.drop_left, htake]
    have hdrop1 : buf.drop ((pre.length : Int) + 8).toNat =
        B ++ ((C ++ d).take (m - 16)) := by
      have h1 : ((pre.length : Int) + 8).toNat = (pre ++ A).length := by
        simp [hAlen]; omega
      rw [h1, hbuf, htake, show pre ++ (A ++ (B ++ ((C ++ d).take (m - 16)))) =
        (pre ++ A) ++ (B ++ ((C ++ d).take (m - 16))) from by simp [List.append_assoc],
        List.drop_left]
    have raw1 : ByteBlockSlicer.rawSlice ⟨buf, (pre.length : Int), none⟩ 8 =
        .ok A ⟨buf, (pre.length : Int) + 8, none⟩ := by
      have := rawSlice_ok buf (A ++ (B ++ ((C ++ d).take (m - 16)))) (pre.length : Int) 8 none
        (by omega) (by omega) hdrop0 (by push_cast [hbuflen]; omega)
      rwa [show ((8 : Int)).toNat = 8 from rfl,
        List.take_append_of_le_length (by omega), ← hAlen, List.take_length] at this
    have raw2 : ByteBlockSlicer.rawSlice ⟨buf, (pre.length : Int) + 8, none⟩ 8 =
        .ok B ⟨buf, (pre.length : Int) + 8 + 8, none⟩ := by
      have := rawSlice_ok buf (B ++ ((C ++ d).take (m - 16))) ((pre.length : Int) + 8) 8 none
        (by omega) (by omega) hdrop1 (by push_cast [hbuflen]; omega)
      rwa [show ((8 : Int)).toNat = 8 from rfl,
        List.take_append_of_le_length (by omega), ← hBlen, List.take_length] at this
    have raw3 : ByteBlockSlicer.rawSlice ⟨buf, (pre.length : Int) + 8 + 8, none⟩ O =
        .errNotEnough :=
      rawSlice_err _ _ _ _ (by push_cast [hbuflen]; omega)
    refine ⟨⟨buf, (pre.length : Int) + 8 + 8, some .ErrNotEnoughBytes⟩, ?_⟩
    simp only [ByteBlockSlicer.Slice, if_neg hEOF, raw1, hreadA, raw2, hreadB, raw3]
  · -- cut inside the payload
    have htake : (A ++ (B ++ (C ++ d))).take m =
        A ++ (B ++ (C ++ d.take (m - 16 - O.toNat))) := by
      rw [List.take_append_eq_append_take, hAlen, List.take_of_length_le (by omega),
        List.take_append_eq_append_take, hBlen, List.take_of_length_le (by omega),
        List.take_append_eq_append_take, hClen, List.take_of_length_le (by omega),
        show m - 8 - 8 = m - 16 from by omega]
    have hdrop0 : buf.drop ((pre.length : Int)).toNat =
        A ++ (B ++ (C ++ d.take (m - 16 - O.toNat))) := by
      rw [Int.toNat_ofNat, hbuf, List.drop_left, htake]
    have hdrop1 : buf.drop ((pre.length : Int) + 8).toNat =
        B ++ (C ++ d.take (m - 16 - O.toNat)) := by
      have h1 : ((pre.length : Int) + 8).toNat = (pre ++ A).length := by
        simp [hAlen]; omega
      rw [h1, hbuf, htake, show pre ++ (A ++ (B ++ (C ++ d.take (m - 16 - O.toNat)))) =
        (pre ++ A) ++ (B ++ (C ++ d.take (m - 16 - O.toNat))) from by simp [List.append_assoc],
        List.drop_left]
    have hdrop2 : buf.drop ((pre.length : Int) + 8 + 8).toNat =
        C ++ d.take (m - 16 - O.toNat) := by
      have h1 : ((pre.length : Int) + 8 + 8).toNat = ((pre ++ A) ++ B).length := by
        simp [hAlen, hBlen]; omega
      rw [h1, hbuf, htake, show pre ++ (A ++ (B ++ (C ++ d.take (m - 16 - O.toNat)))) =
        ((pre ++ A) ++ B) ++ (C ++ d.take (m - 16 - O.toNat)) from by simp [List.append_assoc],
        List.drop_left]
    have raw1 : ByteBlockSlicer.rawSlice ⟨buf, (pre.length : Int), none⟩ 8 =
        .ok A ⟨buf, (pre.length : Int) + 8, none⟩ := by
      have := rawSlice_ok buf (A ++ (B ++ (C ++ d.take (m - 16 - O.toNat))))
        (pre.length : Int) 8 none (by omega) (by omega) hdrop0
        (by push_cast [hbuflen]; omega)
      rwa [show ((8 : Int)).toNat = 8 from rfl,
        List.take_append_of_le_length (by omega), ← hAlen, List.take_length] at this
    have raw2 : ByteBlockSlicer.rawSlice ⟨buf, (pre.length : Int) + 8, none⟩ 8 =
        .ok B ⟨buf, (pre.length : Int) + 8 + 8, none⟩ := by
      have := rawSlice_ok buf (B ++ (C ++ d.take (m - 16 - O.toNat)))
        ((pre.length : Int) + 8) 8 none (by omega) (by omega) hdrop1
        (by push_cast [hbuflen]; omega)
      rwa [show ((8 : Int)).toNat = 8 from rfl,
        List.take_append_of_le_length (by omega), ← hBlen, List.take_length] at this
    have raw3 : ByteBlockSlicer.rawSlice ⟨buf, (pre.length : Int) + 8 + 8, none⟩ O =
        .ok C ⟨buf, (pre.length : Int) + 8 + 8 + O, none⟩ := by
      have := rawSlice_ok buf (C ++ d.take (m - 16 - O.toNat))
        ((pre.length : Int) + 8 + 8) O none (by omega) hO0 hdrop2
        (by push_cast [hbuflen]; omega)
      rwa [List.take_append_of_le_length (by omega), ← hClen, List.take_length] at this
    have raw4 : ByteBlockSlicer.rawSlice ⟨buf, (pre.length : Int) + 8 + 8 + O, none⟩ L =
        .errNotEnough :=
      rawSlice_err _ _ _ _ (by rw [hL]; push_cast [hbuflen]; omega)
    refine ⟨⟨buf, (pre.length : Int) + 8 + 8 + O, none⟩, ?_⟩
    simp only [ByteBlockSlicer.Slice, if_neg hEOF, raw1, hreadA, raw2, hreadB, raw3, raw4]

theorem slice_cutFrame (pre d : List Nat) (a : Int) (m : Nat)
    (hd : (d.length : Int) < 2 ^ 63) (ha : a < 2 ^ 63) (hm0 : 0 < m)
    (hm : m < (frameFor (pre.length : Int) d a).length) :
    ∃ r', ByteBlockSlicer.Slice
        ⟨pre ++ (frameFor (pre.length : Int) d a).take m, (pre.length : Int), none⟩ =
      some (.error .ErrNotEnoughBytes, r') := by
  have hoff0 : 0 ≤ alignOffset a ((pre.length : Int) + 16) := alignOffset_nonneg _ _
  have hoff63 : alignOffset a ((pre.length : Int) + 16) < 2 ^ 63 := by
    by_cases h1 : a ≤ 1
    · rw [alignOffset_of_le_one _ h1]; norm_num
    · exact lt_trans (alignOffset_lt _ (by omega) (by positivity)) ha
  have hFshape : frameFor (pre.length : Int) d a =
      fillInt64 (d.length : Int) ++ (fillInt64 (alignOffset a ((pre.length : Int) + 16)) ++
        (List.replicate (alignOffset a ((pre.length : Int) + 16)).toNat 0 ++ d)) := by
    simp [frameFor, List.append_assoc]
  have hFlen := frameFor_length (pre.length : Int) d a
  rw [hFshape]
  exact slice_cut pre (fillInt64 (d.length : Int))
    (fillInt64 (alignOffset a ((pre.length : Int) + 16)))
    (List.replicate (alignOffset a ((pre.length : Int) + 16)).toNat 0) d
    (d.length : Int) (alignOffset a ((pre.length : Int) + 16)) m
    (fillInt64_length _) (fillInt64_length _) (List.length_replicate _ _)
    (readInt64_fillInt64 _ (by omega) hd)
    (readInt64_fillInt64 _ (by omega) hoff63)
    rfl hoff0 hm0 (by omega)

theorem sliceN_truncated (pairs : List (List Nat × Int)) (pre : List Nat) (m : Nat)
    (h : ∀ pr ∈ pairs, (pr.1.length : Int) < 2 ^ 63 ∧ pr.2 < 2 ^ 63)
    (hm : m < (streamFrom (pre.length : Int) pairs).length)
    (hb : ∀ k, k ≤ pairs.length → m ≠ boundaryLen (pre.length : Int) pairs k) :
    ∃ s' r',
      sliceN ⟨pre ++ (streamFrom (pre.length : Int) pairs).take m, (pre.length : Int), none⟩
          (cutCount (pre.length : Int) m pairs) =
        some ((pairs.take (cutCount (pre.length : Int) m pairs)).map Prod.fst, s') ∧
      ByteBlockSlicer.Slice s' = some (.error .ErrNotEnoughBytes, r') := by
  induction pairs generalizing pre m with
  | nil => simp [streamFrom] at hm
  | cons pair rest ih =>
    obtain ⟨d, a⟩ := pair
    have hda := h (d, a) (List.mem_cons_self _ _)
    have hm0 : 0 < m := by
      have h0 := hb 0 (Nat.zero_le _)
      simp only [boundaryLen] at h0
      omega
    rcases Nat.lt_or_ge m (frameFor (pre.length : Int) d a).length with hlt | hge
    · -- the cut lands inside the first frame
      have hcc : cutCount (pre.length : Int) m ((d, a) :: rest) = 0 := by
        simp only [cutCount, if_neg (by omega : ¬ (frameFor (pre.length : Int) d a).length ≤ m)]
      have htake : (streamFrom (pre.length : Int) ((d, a) :: rest)).take m =
          (frameFor (pre.length : Int) d a).take m := by
        simp only [streamFrom]
        rw [List.take_append_of_le_length (by omega)]
      obtain ⟨r', hr'⟩ := slice_cutFrame pre d a m hda.1 hda.2 hm0 hlt
      refine ⟨⟨pre ++ (streamFrom (pre.length : Int) ((d, a) :: rest)).take m,
        (pre.length : Int), none⟩, r', ?_, ?_⟩
      · rw [hcc]; rfl
      · rw [htake]; exact hr'
    · -- the first frame is complete; recurse on the rest
      have hfl : (frameFor (pre.length : Int) d a).length < m := by
        have h1 := hb 1 (by simp)
        simp only [boundaryLen, Nat.add_zero] at h1
        omega
      have hcc : cutCount (pre.length : Int) m ((d, a) :: rest) =
          cutCount ((pre.length : Int) + (frameFor (pre.length : Int) d a).length)
            (m - (frameFor (pre.length : Int) d a).length) rest + 1 := by
        simp only [cutCount, if_pos hge]
      have htake : (streamFrom (pre.length : Int) ((d, a) :: rest)).take m =
          frameFor (pre.length : Int) d a ++
            (streamFrom ((pre.length : Int) + (frameFor (pre.length : Int) d a).length)
              rest).take (m - (frameFor (pre.length : Int) d a).length) := by
        simp only [streamFrom]
        rw [List.take_append_eq_append_take, List.take_of_length_le (by omega)]
      have hcur : (pre.length : Int) + ((frameFor (pre.length : Int) d a).length : Int) =
          (((pre ++ frameFor (pre.length : Int) d a).length : Nat) : Int) := by
        push_cast [List.length_append]
        ring
      have hmrest : m - (frameFor (pre.length : Int) d a).length <
          (streamFrom ((pre.length : Int) + (frameFor (pre.length : Int) d a).length)
            rest).length := by
        simp only [streamFrom, List.length_append] at hm
        omega
      have hbrest : ∀ k, k ≤ rest.length →
          m - (frameFor (pre.length : Int) d a).length ≠
            boundaryLen ((pre.length : Int) + (frameFor (pre.length : Int) d a).length)
              rest k := by
        intro k hk heq
        have hk1 := hb (k + 1) (by simp [hk])
        simp only [boundaryLen] at hk1
        omega
      rw [hcur] at hmrest hbrest
      rw [hcc, htake, hcur]
      simp only [sliceN]
      rw [slice_frame pre d _ a hda.1 hda.2, hcur]
      have hassoc : pre ++ (frameFor (pre.length : Int) d a ++
          (streamFrom (((pre ++ frameFor (pre.length : Int) d a).length : Int)) rest).take
            (m - (frameFor (pre.length : Int) d a).length)) =
          (pre ++ frameFor (pre.length : Int) d a) ++
          (streamFrom (((pre ++ frameFor (pre.length : Int) d a).length : Int)) rest).take
            (m - (frameFor (pre.length : Int) d a).length) :=
        (List.append_assoc _ _ _).symm
      rw [hassoc]
      dsimp only
      obtain ⟨s', r', hsl, her⟩ := ih (pre ++ frameFor (pre.length : Int) d a)
        (m - (frameFor (pre.length : Int) d a).length)
        (fun pr hpr => h pr (List.mem_cons_of_mem _ hpr)) hmrest hbrest
      refine ⟨s', r', ?_, her⟩
      rw [hsl]
      simp

theorem rawSlice_ok_inv (r : ByteBlockSlicer) (n : Int) (b : List Nat)
    (r1 : ByteBlockSlicer) (h : r.rawSlice n = .ok b r1) :
    r1.data = r.data ∧ r1.err = r.err ∧
    r1.numBytesSliced = r.numBytesSliced + n ∧ 0 ≤ n ∧ 0 ≤ r.numBytesSliced ∧
    b = (r.data.drop r.numBytesSliced.toNat).take n.toNat ∧
    r.numBytesSliced + n ≤ (r.data.length : Int) := by
  unfold ByteBlockSlicer.rawSlice at h
  split at h
  · cases h
  · next hout =>
    split at h
    · next hcond =>
      injection h with h1 h2
      subst h2
      exact ⟨rfl, rfl, rfl, hcond.2, hcond.1, h1.symm, by omega⟩
    · cases h

theorem rawSlice_err_inv (r : ByteBlockSlicer) (n : Int)
    (h : r.rawSlice n = .errNotEnough) :
    (r.data.length : Int) < r.numBytesSliced + n := by
  unfold ByteBlockSlicer.rawSlice at h
  split at h
  · assumption
  · split at h <;> cases h

theorem rawSlice_panic_inv (r : ByteBlockSlicer) (n : Int)
    (h : r.rawSlice n = .panic) : ¬ (0 ≤ r.numBytesSliced ∧ 0 ≤ n) := by
  unfold ByteBlockSlicer.rawSlice at h
  split at h
  · cases h
  · split at h
    · cases h
    · assumption

theorem slice_eof (buf : List Nat) (c : Int) (hc : (buf.length : Int) ≤ c) :
    ByteBlockSlicer.Slice ⟨buf, c, none⟩ = some (.eof, ⟨buf, c, none⟩) := by
  unfold ByteBlockSlicer.Slice
  rw [if_pos hc]

theorem streamFrom_append (xs ys : List (List Nat × Int)) (p : Int) :
    streamFrom p (xs ++ ys) =
      streamFrom p xs ++ streamFrom (p + ((streamFrom p xs).length : Int)) ys := by
  induction xs generalizing p with
  | nil => simp [streamFrom]
  | cons pair rest ih =>
    obtain ⟨d, a⟩ := pair
    have hcons : ((d, a) :: rest) ++ ys = (d, a) :: (rest ++ ys) := rfl
    rw [hcons]
    simp only [streamFrom]
    rw [ih, List.append_assoc]
    congr 3
    push_cast [List.length_append]
    ring

/-! ## Claim theorems -/

/-- C7: for every representable 64-bit signed integer `n` (including 0,
negative values and values using the high bit), decoding the 8 bytes
produced by encoding `n` least-significant-byte-first gives back `n`:
`readInt64 (fillInt64 n) = n`. -/
theorem C7_codec_inverse (n : Int) (h0 : -(2 ^ 63) ≤ n) (h1 : n < 2 ^ 63) :
    readInt64 (fillInt64 n) = n :=
  readInt64_fillInt64 n h0 h1

theorem C7_codec_inverse_witness :
    -(2 ^ 63) ≤ (-5 : Int) ∧ (-5 : Int) < 2 ^ 63 ∧ readInt64 (fillInt64 (-5)) = -5 :=
  ⟨by decide, by decide, C7_codec_inverse (-5) (by decide) (by decide)⟩

/-- C8 counterexample: the claim asserts `alignOffset align pos ∈ [0, align)`
for every `pos` when `align > 1`, but Go's truncating `%` makes
`alignOffset 4 (-1) = 5`, which is not `< 4`. -/
theorem C8_alignOffset_counterexample :
    alignOffset 4 (-1) = 5 ∧ ¬ (alignOffset 4 (-1) < 4) := by
  decide

/-- C8 (amended): `alignOffset align pos` is 0 when `align ≤ 1`; it is
always nonnegative; `(pos + alignOffset align pos) % align = 0` for every
`pos` when `align > 1`; and it is `< align` when `align > 1` and
`pos ≥ 0` (every position the writer passes is nonnegative) — for
negative `pos` the value can exceed `align`. -/
theorem C8_aligner_boundary (align pos : Int) :
    (align ≤ 1 → alignOffset align pos = 0) ∧
    0 ≤ alignOffset align pos ∧
    (1 < align → (pos + alignOffset align pos) % align = 0) ∧
    (1 < align → 0 ≤ pos → alignOffset align pos < align) :=
  ⟨alignOffset_of_le_one pos, alignOffset_nonneg align pos,
    fun ha => alignOffset_emod pos ha,
    fun ha hp => alignOffset_lt pos ha hp⟩

theorem C8_aligner_boundary_witness :
    (1 < (4 : Int)) ∧ (0 ≤ (6 : Int)) ∧
    ((6 : Int) + alignOffset 4 6) % 4 = 0 ∧ alignOffset 4 6 < 4 :=
  ⟨by decide, by decide, (C8_aligner_boundary 4 6).2.2.1 (by decide),
    (C8_aligner_boundary 4 6).2.2.2 (by decide) (by decide)⟩

/-- C5: on an error-free writer, `NewBlock` fails with
`ErrNewBlockBeforeFinish` and writes nothing to the sink when the
remaining-length counter is still positive; otherwise it writes the
8-byte length field, the 8-byte offset field and `offset` zero bytes of
padding, and sets the remaining-length counter to `length`. -/
theorem C5_newBlock (w : ByteBlockWriter) (a l : Int) (h : w.err = none) :
    (0 < w.numBytesLeft →
      w.NewBlock a l = ({ w with err := some .ErrNewBlockBeforeFinish },
        some .ErrNewBlockBeforeFinish)) ∧
    (¬ 0 < w.numBytesLeft →
      (fillInt64 l).length = 8 ∧
      (fillInt64 (alignOffset a (w.numBytesWritten + 16))).length = 8 ∧
      w.NewBlock a l =
        (⟨w.out ++ fillInt64 l ++ fillInt64 (alignOffset a (w.numBytesWritten + 16)) ++
            List.replicate (alignOffset a (w.numBytesWritten + 16)).toNat 0,
          w.numBytesWritten + 16 + alignOffset a (w.numBytesWritten + 16),
          l, none⟩, none)) :=
  ⟨fun hl => NewBlock_blockOpen w a l h hl,
    fun hl => ⟨fillInt64_length l, fillInt64_length _, NewBlock_success w a l h hl⟩⟩

theorem C5_newBlock_witness :
    0 < (5 : Int) ∧
    (ByteBlockWriter.NewBlock ⟨[], 0, 5, none⟩ 4 2 =
      ({ (⟨[], 0, 5, none⟩ : ByteBlockWriter) with err := some .ErrNewBlockBeforeFinish },
        some .ErrNewBlockBeforeFinish)) :=
  ⟨by decide, (C5_newBlock ⟨[], 0, 5, none⟩ 4 2 rfl).1 (by decide)⟩

/-- C6: on an error-free writer, `Append` fails with
`ErrWriteMoreThanRequested` when the chunk is longer than the
remaining-length counter, and otherwise appends the chunk verbatim to
the sink and decrements the counter by the chunk's length; in
particular, opening a block of declared length 2 and appending a 1-byte
chunk then a 2-byte chunk fails the second append. -/
theorem C6_append (w : ByteBlockWriter) (d : List Nat) (h : w.err = none) :
    (w.numBytesLeft < (d.length : Int) →
      w.Append d = ({ w with err := some .ErrWriteMoreThanRequested },
        some .ErrWriteMoreThanRequested)) ∧
    (¬ w.numBytesLeft < (d.length : Int) →
      w.Append d = (⟨w.out ++ d, w.numBytesWritten + d.length,
        w.numBytesLeft - d.length, none⟩, none)) ∧
    ((((NewByteBlockWriter.NewBlock 0 2).1.Append [0]).1.Append [1, 2]).2 =
      some .ErrWriteMoreThanRequested) :=
  ⟨fun hl => Append_overflow w d h hl,
    fun hl => Append_success w d h hl,
    by decide⟩

theorem C6_append_witness :
    ((5 : Int) < ((12 : Nat) : Int)) ∧
    (ByteBlockWriter.Append ⟨[], 0, 5, none⟩ (List.replicate 12 7) =
      ({ (⟨[], 0, 5, none⟩ : ByteBlockWriter) with err := some .ErrWriteMoreThanRequested },
        some .ErrWriteMoreThanRequested)) :=
  ⟨by decide, (C6_append ⟨[], 0, 5, none⟩ (List.replicate 12 7) rfl).1 (by decide)⟩

/-- C9: the one-shot `Write` is the composition of `NewBlock` (with the
data's length) and `Append` — definitionally for the incremental
variant — and, started from corresponding states, the standalone
one-shot writer variant produces byte-for-byte the same sink contents,
the same byte counter and the same error outcome as the incremental
variant's `Write`. -/
theorem C9_write_equivalence (w : ByteBlockWriter) (d : List Nat) (a : Int)
    (out : List Nat) (nw : Int) :
    (w.Write d a = match w.NewBlock a d.length with
      | (w1, some e) => (w1, some e)
      | (w1, none) => w1.Append d) ∧
    (OneShotWriter.Write ⟨out, nw, none⟩ d a =
      (⟨(ByteBlockWriter.Write ⟨out, nw, 0, none⟩ d a).1.out,
        (ByteBlockWriter.Write ⟨out, nw, 0, none⟩ d a).1.numBytesWritten, none⟩,
        (ByteBlockWriter.Write ⟨out, nw, 0, none⟩ d a).2)) := by
  refine ⟨rfl, ?_⟩
  rw [Write_success ⟨out, nw, 0, none⟩ d a rfl (by simp)]
  dsimp only
  simp only [OneShotWriter.Write, OneShotWriter.rawWrite, fillInt64_length]
  have harg : nw + ((8 : Nat) : Int) + 8 = nw + 16 := by push_cast; ring
  rw [harg]
  simp only [frameFor, Prod.mk.injEq, OneShotWriter.mk.injEq, List.append_assoc,
    List.length_replicate]
  and_intros
  all_goals first
    | trivial
    | (rw [Int.toNat_of_nonneg (alignOffset_nonneg a (nw + 16))]; push_cast; ring)

/-- C2 counterexample: a Slicer failure at the final payload read is not
latched. On the 32-byte buffer claiming a 100-byte payload followed by a
spurious empty frame, the first `Slice` fails with `ErrNotEnoughBytes`
but leaves `err` unset, and the second `Slice` returns a payload instead
of repeating the error. -/
theorem C2_sticky_counterexample :
    (ByteBlockSlicer.Slice
        ⟨fillInt64 100 ++ fillInt64 0 ++ fillInt64 0 ++ fillInt64 0, 0, none⟩ =
      some (.error .ErrNotEnoughBytes,
        ⟨fillInt64 100 ++ fillInt64 0 ++ fillInt64 0 ++ fillInt64 0, 16, none⟩)) ∧
    (ByteBlockSlicer.Slice
        ⟨fillInt64 100 ++ fillInt64 0 ++ fillInt64 0 ++ fillInt64 0, 16, none⟩ =
      some (.ok [],
        ⟨fillInt64 100 ++ fillInt64 0 ++ fillInt64 0 ++ fillInt64 0, 32, none⟩)) := by
  decide

/-- C2 (amended): operations on a latched Writer or Slicer return the
latched error with the state unchanged and no I/O; Writer failures are
always latched; Slicer failures while reading the length field, offset
field or padding are latched, but a failure at the final payload read
returns `ErrNotEnoughBytes` without latching it, leaving the cursor just
past the header and padding, so a later `Slice` may return end-of-stream
or even data. -/
theorem C2_sticky_amended :
    (∀ (w : ByteBlockWriter) (e : WriterError) (a l : Int) (d : List Nat),
      w.err = some e →
      w.NewBlock a l = (w, some e) ∧ w.Append d = (w, some e) ∧ w.Write d a = (w, some e)) ∧
    (∀ (w : ByteBlockWriter) (a l : Int) (e : WriterError), w.err = none →
      (w.NewBlock a l).2 = some e →
      (w.NewBlock a l).1.err = some e ∧ (w.NewBlock a l).1.out = w.out) ∧
    (∀ (w : ByteBlockWriter) (d : List Nat) (e : WriterError), w.err = none →
      (w.Append d).2 = some e →
      (w.Append d).1.err = some e ∧ (w.Append d).1.out = w.out) ∧
    (∀ (r : ByteBlockSlicer) (e : SlicerError), r.err = some e →
      r.Slice = some (.error e, r)) ∧
    (∀ (r r' : ByteBlockSlicer) (e : SlicerError),
      r.err = none → 0 ≤ r.numBytesSliced →
      r.Slice = some (.error e, r') →
      e = .ErrNotEnoughBytes ∧ r'.data = r.data ∧
        (r'.err = some e ∨ (r'.err = none ∧
          r'.numBytesSliced = r.numBytesSliced + 16 +
            readInt64 ((r.data.drop (r.numBytesSliced.toNat + 8)).take 8)))) := by
  refine ⟨?_, ?_, ?_, ?_, ?_⟩
  · intro w e a l d h
    exact ⟨NewBlock_latched w a l e h, Append_latched w d e h, Write_latched w d a e h⟩
  · intro w a l e h h2
    by_cases hl : 0 < w.numBytesLeft
    · rw [NewBlock_blockOpen w a l h hl] at h2 ⊢
      dsimp only at h2 ⊢
      cases h2
      exact ⟨rfl, rfl⟩
    · rw [NewBlock_success w a l h hl] at h2
      dsimp only at h2
      cases h2
  · intro w d e h h2
    by_cases hl : w.numBytesLeft < (d.length : Int)
    · rw [Append_overflow w d h hl] at h2 ⊢
      dsimp only at h2 ⊢
      cases h2
      exact ⟨rfl, rfl⟩
    · rw [Append_success w d h hl] at h2
      dsimp only at h2
      cases h2
  · intro r e h
    unfold ByteBlockSlicer.Slice
    rw [h]
  · intro r r' e h h0 hs
    unfold ByteBlockSlicer.Slice at hs
    rw [h] at hs
    dsimp only at hs
    by_cases hEOF : (r.data.length : Int) ≤ r.numBytesSliced
    · rw [if_pos hEOF] at hs
      simp at hs
    rw [if_neg hEOF] at hs
    cases h1 : r.rawSlice 8 with
    | panic => rw [h1] at hs; cases hs
    | errNotEnough =>
      rw [h1] at hs
      dsimp only at hs
      injection hs with hs
      injection hs with hs1 hs2
      cases hs1
      exact ⟨rfl, by rw [← hs2], Or.inl (by rw [← hs2])⟩
    | ok b r1 =>
      obtain ⟨h1d, h1e, h1c, -, -, h1b, h1le⟩ := rawSlice_ok_inv r 8 b r1 h1
      rw [h1] at hs
      dsimp only at hs
      cases h2 : r1.rawSlice 8 with
      | panic => rw [h2] at hs; cases hs
      | errNotEnough =>
        rw [h2] at hs
        dsimp only at hs
        injection hs with hs
        injection hs with hs1 hs2
        cases hs1
        refine ⟨rfl, ?_, Or.inl (by rw [← hs2])⟩
        rw [← hs2]
        dsimp only
        exact h1d
      | ok b2 r2 =>
        obtain ⟨h2d, h2e, h2c, -, -, h2b, h2le⟩ := rawSlice_ok_inv r1 8 b2 r2 h2
        rw [h2] at hs
        dsimp only at hs
        have hb2 : b2 = (r.data.drop (r.numBytesSliced.toNat + 8)).take 8 := by
          rw [h2b, h1d, h1c]
          congr 2
          omega
        cases h3 : r2.rawSlice (readInt64 b2) with
        | panic => rw [h3] at hs; cases hs
        | errNotEnough =>
          rw [h3] at hs
          dsimp only at hs
          injection hs with hs
          injection hs with hs1 hs2
          cases hs1
          refine ⟨rfl, ?_, Or.inl (by rw [← hs2])⟩
          rw [← hs2]
          dsimp only
          rw [h2d, h1d]
        | ok b3 r3 =>
          obtain ⟨h3d, h3e, h3c, h3n, -, -, h3le⟩ := rawSlice_ok_inv r2 (readInt64 b2) b3 r3 h3
          rw [h3] at hs
          dsimp only at hs
          cases h4 : r3.rawSlice (readInt64 b) with
          | panic => rw [h4] at hs; cases hs
          | errNotEnough =>
            rw [h4] at hs
            dsimp only at hs
            injection hs with hs
            injection hs with hs1 hs2
            cases hs1
            refine ⟨rfl, ?_, Or.inr ⟨?_, ?_⟩⟩
            · rw [← hs2, h3d, h2d, h1d]
            · rw [← hs2, h3e, h2e, h1e, h]
            · rw [← hs2, h3c, h2c, h1c, hb2]
              ring
          | ok b4 r4 =>
            rw [h4] at hs
            dsimp only at hs
            injection hs with hs
            injection hs with hs1 hs2
            cases hs1

theorem C2_sticky_amended_witness :
    ((⟨[], 0, some .ErrNotEnoughBytes⟩ : ByteBlockSlicer).err = some .ErrNotEnoughBytes) ∧
    (ByteBlockSlicer.Slice (⟨[], 0, some .ErrNotEnoughBytes⟩ : ByteBlockSlicer) =
      some (.error .ErrNotEnoughBytes, (⟨[], 0, some .ErrNotEnoughBytes⟩ : ByteBlockSlicer))) ∧
    ((⟨[], 0, 5, none⟩ : ByteBlockWriter).err = none) ∧
    ((ByteBlockWriter.NewBlock ⟨[], 0, 5, none⟩ 4 2).2 = some .ErrNewBlockBeforeFinish) ∧
    ((ByteBlockWriter.NewBlock ⟨[], 0, 5, none⟩ 4 2).1.err = some .ErrNewBlockBeforeFinish ∧
      (ByteBlockWriter.NewBlock ⟨[], 0, 5, none⟩ 4 2).1.out = (⟨[], 0, 5, none⟩ : ByteBlockWriter).out) :=
  ⟨rfl, C2_sticky_amended.2.2.2.1 _ _ rfl, rfl, by decide,
    C2_sticky_amended.2.1 ⟨[], 0, 5, none⟩ 4 2 .ErrNewBlockBeforeFinish rfl (by decide)⟩

/-- C1: writing any sequence of `(payload, align)` pairs with the Writer
into an initially empty sink and then calling `Slice` sequentially on
the resulting buffer returns exactly the same payloads, in the same
order, byte for byte, with no error, and the next call signals
end-of-stream. (The bounds reflect that payload lengths and alignments
are Go `int64`/`int` values.) -/
theorem C1_roundtrip (pairs : List (List Nat × Int))
    (h : ∀ pr ∈ pairs, (pr.1.length : Int) < 2 ^ 63 ∧ pr.2 < 2 ^ 63) :
    sliceN (NewByteBlockSlicer (writeSeq NewByteBlockWriter pairs).out) pairs.length =
      some (pairs.map Prod.fst,
        ⟨(writeSeq NewByteBlockWriter pairs).out,
          ((writeSeq NewByteBlockWriter pairs).out.length : Int), none⟩) ∧
    ByteBlockSlicer.Slice
        ⟨(writeSeq NewByteBlockWriter pairs).out,
          ((writeSeq NewByteBlockWriter pairs).out.length : Int), none⟩ =
      some (.eof,
        ⟨(writeSeq NewByteBlockWriter pairs).out,
          ((writeSeq NewByteBlockWriter pairs).out.length : Int), none⟩) := by
  have hw : writeSeq NewByteBlockWriter pairs =
      ⟨[] ++ streamFrom 0 pairs, 0 + ((streamFrom 0 pairs).length : Int), 0, none⟩ :=
    writeSeq_spec pairs NewByteBlockWriter rfl rfl
  have hout : (writeSeq NewByteBlockWriter pairs).out = streamFrom 0 pairs := by
    rw [hw]
    exact List.nil_append _
  constructor
  · have hstream := sliceN_stream pairs []
      (fun pr hpr => h pr hpr)
    simp only [List.length_nil, Nat.cast_zero, List.nil_append] at hstream
    rw [hout, NewByteBlockSlicer]
    exact hstream
  · exact slice_eof _ _ (le_refl _)

theorem C1_roundtrip_witness :
    (∀ pr ∈ [(([3, 1, 4] : List Nat), (0 : Int)), (([1, 5] : List Nat), (4 : Int))],
      (pr.1.length : Int) < 2 ^ 63 ∧ pr.2 < 2 ^ 63) ∧
    sliceN (NewByteBlockSlicer
        (writeSeq NewByteBlockWriter [(([3, 1, 4] : List Nat), (0 : Int)), (([1, 5] : List Nat), (4 : Int))]).out) 2 =
      some ([[3, 1, 4], [1, 5]],
        ⟨(writeSeq NewByteBlockWriter [(([3, 1, 4] : List Nat), (0 : Int)), (([1, 5] : List Nat), (4 : Int))]).out,
          ((writeSeq NewByteBlockWriter [(([3, 1, 4] : List Nat), (0 : Int)), (([1, 5] : List Nat), (4 : Int))]).out.length : Int),
          none⟩) :=
  ⟨by decide, (C1_roundtrip _ (by decide)).1⟩

theorem streamFrom_cons (p : Int) (x : List Nat × Int) (rest : List (List Nat × Int)) :
    streamFrom p (x :: rest) =
      frameFor p x.1 x.2 ++
        streamFrom (p + ((frameFor p x.1 x.2).length : Int)) rest := by
  obtain ⟨d, a⟩ := x
  rfl

/-- C3: in a stream the Writer produced from its start, every block
written with `align > 1` has its payload starting at an absolute
position that is a multiple of `align` (the payload bytes do sit at
that position in the final stream), and every block written with
`align ≤ 1` has offset field 0. -/
theorem C3_alignment (pairs : List (List Nat × Int)) (k : Nat) (hk : k < pairs.length) :
    ((((writeSeq NewByteBlockWriter pairs).out.drop
        ((writeSeq NewByteBlockWriter (pairs.take k)).numBytesWritten + 16 +
          alignOffset (pairs[k].2)
            ((writeSeq NewByteBlockWriter (pairs.take k)).numBytesWritten + 16)).toNat).take
        (pairs[k].1.length)) = pairs[k].1) ∧
    (1 < pairs[k].2 →
      ((writeSeq NewByteBlockWriter (pairs.take k)).numBytesWritten + 16 +
        alignOffset (pairs[k].2)
          ((writeSeq NewByteBlockWriter (pairs.take k)).numBytesWritten + 16)) %
        pairs[k].2 = 0) ∧
    (pairs[k].2 ≤ 1 →
      alignOffset (pairs[k].2)
        ((writeSeq NewByteBlockWriter (pairs.take k)).numBytesWritten + 16) = 0) := by
  refine ⟨?_, fun ha => alignOffset_emod _ ha, fun ha => alignOffset_of_le_one _ ha⟩
  have hnw : (writeSeq NewByteBlockWriter (pairs.take k)).numBytesWritten =
      ((streamFrom 0 (pairs.take k)).length : Int) := by
    rw [writeSeq_spec (pairs.take k) NewByteBlockWriter rfl rfl]
    exact zero_add _
  have hout : (writeSeq NewByteBlockWriter pairs).out = streamFrom 0 pairs := by
    rw [writeSeq_spec pairs NewByteBlockWriter rfl rfl]
    exact List.nil_append _
  have hdecomp : pairs = pairs.take k ++ (pairs[k] :: pairs.drop (k + 1)) := by
    conv_lhs => rw [← List.take_append_drop k pairs]
    rw [List.drop_eq_getElem_cons hk]
  have hoff0 : 0 ≤ alignOffset (pairs[k].2)
      (((streamFrom 0 (pairs.take k)).length : Int) + 16) := alignOffset_nonneg _ _
  have hstream : streamFrom 0 pairs =
      streamFrom 0 (pairs.take k) ++
        (frameFor ((streamFrom 0 (pairs.take k)).length : Int) (pairs[k].1) (pairs[k].2) ++
          streamFrom (((streamFrom 0 (pairs.take k)).length : Int) +
              ((frameFor ((streamFrom 0 (pairs.take k)).length : Int)
                (pairs[k].1) (pairs[k].2)).length : Int))
            (pairs.drop (k + 1))) := by
    conv_lhs => rw [hdecomp]
    rw [streamFrom_append, zero_add, streamFrom_cons]
  rw [hout, hnw, hstream]
  have hfull : streamFrom 0 (pairs.take k) ++
      (frameFor ((streamFrom 0 (pairs.take k)).length : Int) (pairs[k].1) (pairs[k].2) ++
        streamFrom (((streamFrom 0 (pairs.take k)).length : Int) +
            ((frameFor ((streamFrom 0 (pairs.take k)).length : Int)
              (pairs[k].1) (pairs[k].2)).length : Int))
          (pairs.drop (k + 1))) =
      (streamFrom 0 (pairs.take k) ++
        (fillInt64 (pairs[k].1.length : Int) ++
          (fillInt64 (alignOffset (pairs[k].2)
              (((streamFrom 0 (pairs.take k)).length : Int) + 16)) ++
            List.replicate (alignOffset (pairs[k].2)
              (((streamFrom 0 (pairs.take k)).length : Int) + 16)).toNat 0))) ++
      (pairs[k].1 ++
        streamFrom (((streamFrom 0 (pairs.take k)).length : Int) +
            ((frameFor ((streamFrom 0 (pairs.take k)).length : Int)
              (pairs[k].1) (pairs[k].2)).length : Int))
          (pairs.drop (k + 1))) := by
    simp [frameFor, List.append_assoc]
  rw [hfull]
  have hplen : (streamFrom 0 (pairs.take k) ++
      (fillInt64 (pairs[k].1.length : Int) ++
        (fillInt64 (alignOffset (pairs[k].2)
            (((streamFrom 0 (pairs.take k)).length : Int) + 16)) ++
          List.replicate (alignOffset (pairs[k].2)
            (((streamFrom 0 (pairs.take k)).length : Int) + 16)).toNat 0))).length =
      (streamFrom 0 (pairs.take k)).length + 16 +
        (alignOffset (pairs[k].2)
          (((streamFrom 0 (pairs.take k)).length : Int) + 16)).toNat := by
    simp only [List.length_append, fillInt64_length, List.length_replicate]
    omega
  have hT : (((streamFrom 0 (pairs.take k)).length : Int) + 16 +
      alignOffset (pairs[k].2)
        (((streamFrom 0 (pairs.take k)).length : Int) + 16)).toNat =
      (streamFrom 0 (pairs.take k)).length + 16 +
        (alignOffset (pairs[k].2)
          (((streamFrom 0 (pairs.take k)).length : Int) + 16)).toNat := by
    omega
  rw [hT, ← hplen, List.drop_left, List.take_left]

theorem C3_alignment_witness :
    (0 : Nat) < ([(([1, 2] : List Nat), (4 : Int))] : List (List Nat × Int)).length ∧
    ((((writeSeq NewByteBlockWriter [(([1, 2] : List Nat), (4 : Int))]).out.drop 16).take 2) =
      [1, 2]) ∧
    (1 < (4 : Int)) ∧
    ((0 : Int) + 16 + alignOffset 4 (0 + 16)) % 4 = 0 :=
  ⟨by decide, (C3_alignment [(([1, 2] : List Nat), (4 : Int))] 0 (by decide)).1,
    by decide, (C3_alignment [(([1, 2] : List Nat), (4 : Int))] 0 (by decide)).2.1 (by decide)⟩

/-- C4: decoding any strict prefix of a Writer-produced stream that does
not end exactly at a frame boundary returns the payloads of the frames
the prefix fully contains — byte for byte, no partial or corrupt data —
and then fails with `ErrNotEnoughBytes` at the frame the prefix cuts. -/
theorem C4_truncation (pairs : List (List Nat × Int)) (m : Nat)
    (h : ∀ pr ∈ pairs, (pr.1.length : Int) < 2 ^ 63 ∧ pr.2 < 2 ^ 63)
    (hm : m < (writeSeq NewByteBlockWriter pairs).out.length)
    (hb : ∀ k, k ≤ pairs.length → m ≠ boundaryLen 0 pairs k) :
    ∃ s' r',
      sliceN (NewByteBlockSlicer ((writeSeq NewByteBlockWriter pairs).out.take m))
          (cutCount 0 m pairs) =
        some ((pairs.take (cutCount 0 m pairs)).map Prod.fst, s') ∧
      ByteBlockSlicer.Slice s' = some (.error .ErrNotEnoughBytes, r') := by
  have hout : (writeSeq NewByteBlockWriter pairs).out = streamFrom 0 pairs := by
    rw [writeSeq_spec pairs NewByteBlockWriter rfl rfl]
    exact List.nil_append _
  rw [hout] at hm ⊢
  obtain ⟨s', r', h1, h2⟩ := sliceN_truncated pairs [] m h
    (by simpa using hm) (by simpa using hb)
  simp only [List.length_nil, Nat.cast_zero, List.nil_append] at h1
  exact ⟨s', r', h1, h2⟩

theorem C4_truncation_witness :
    ((5 : Nat) < (writeSeq NewByteBlockWriter
        [(([1, 2, 3] : List Nat), (0 : Int))]).out.length) ∧
    (∀ k, k ≤ ([(([1, 2, 3] : List Nat), (0 : Int))] :
        List (List Nat × Int)).length →
      (5 : Nat) ≠ boundaryLen 0 [(([1, 2, 3] : List Nat), (0 : Int))] k) ∧
    (∃ s' r',
      sliceN (NewByteBlockSlicer ((writeSeq NewByteBlockWriter
            [(([1, 2, 3] : List Nat), (0 : Int))]).out.take 5))
          (cutCount 0 5 [(([1, 2, 3] : List Nat), (0 : Int))]) =
        some ((([(([1, 2, 3] : List Nat), (0 : Int))] :
          List (List Nat × Int)).take
            (cutCount 0 5 [(([1, 2, 3] : List Nat), (0 : Int))])).map Prod.fst, s') ∧
      ByteBlockSlicer.Slice s' = some (.error .ErrNotEnoughBytes, r')) :=
  ⟨by decide, by decide,
    C4_truncation [(([1, 2, 3] : List Nat), (0 : Int))] 5 (by decide) (by decide) (by decide)⟩

/-- C10 counterexample: on a 16-byte buffer whose offset header field
decodes to -1, `Slice` does not return at all — the slice expression in
`rawSlice` has `high < low` and panics (modelled as `none`). -/
theorem C10_slicer_counterexample :
    ByteBlockSlicer.Slice ⟨fillInt64 0 ++ fillInt64 (-1), 0, none⟩ = none := by
  decide

/-- C10 (amended): for every slicer state whose cursor is within the
buffer, if the length and offset header fields at the cursor decode to
nonnegative values then `Slice` returns (a payload view, end-of-stream,
or an error) with the cursor advanced monotonically and still within
the buffer; when a decoded length or offset is negative the slice
expression panics instead of returning. -/
theorem C10_slicer_totality (r : ByteBlockSlicer)
    (h0 : 0 ≤ r.numBytesSliced) (h1 : r.numBytesSliced ≤ (r.data.length : Int))
    (hL : 0 ≤ readInt64 ((r.data.drop r.numBytesSliced.toNat).take 8))
    (hO : 0 ≤ readInt64 ((r.data.drop (r.numBytesSliced.toNat + 8)).take 8)) :
    ∃ res r', r.Slice = some (res, r') ∧ r'.data = r.data ∧
      0 ≤ r'.numBytesSliced ∧ r'.numBytesSliced ≤ (r.data.length : Int) ∧
      r.numBytesSliced ≤ r'.numBytesSliced := by
  cases herr : r.err with
  | some e =>
    refine ⟨.error e, r, ?_, rfl, h0, h1, le_refl _⟩
    unfold ByteBlockSlicer.Slice
    rw [herr]
  | none =>
    unfold ByteBlockSlicer.Slice
    rw [herr]
    dsimp only
    by_cases hEOF : (r.data.length : Int) ≤ r.numBytesSliced
    · rw [if_pos hEOF]
      exact ⟨.eof, r, rfl, rfl, h0, h1, le_refl _⟩
    rw [if_neg hEOF]
    cases hr1 : r.rawSlice 8 with
    | panic => exact absurd ⟨h0, by norm_num⟩ (rawSlice_panic_inv r 8 hr1)
    | errNotEnough =>
      exact ⟨.error .ErrNotEnoughBytes, _, rfl, rfl, h0, h1, le_refl _⟩
    | ok b r1 =>
      obtain ⟨h1d, h1e, h1c, -, -, h1b, h1le⟩ := rawSlice_ok_inv r 8 b r1 hr1
      have hlen1 : (r1.data.length : Int) = (r.data.length : Int) := by rw [h1d]
      have hLb : 0 ≤ readInt64 b := by
        rw [h1b]
        simpa using hL
      dsimp only
      cases hr2 : r1.rawSlice 8 with
      | panic => exact absurd ⟨by omega, by norm_num⟩ (rawSlice_panic_inv r1 8 hr2)
      | errNotEnough =>
        refine ⟨.error .ErrNotEnoughBytes, _, rfl, ?_, ?_, ?_, ?_⟩
        · exact h1d
        all_goals dsimp only; omega
      | ok b2 r2 =>
        obtain ⟨h2d, h2e, h2c, -, -, h2b, h2le⟩ := rawSlice_ok_inv r1 8 b2 r2 hr2
        have hlen2 : (r2.data.length : Int) = (r.data.length : Int) := by rw [h2d, h1d]
        have hOb : 0 ≤ readInt64 b2 := by
          have hb2 : b2 = (r.data.drop (r.numBytesSliced.toNat + 8)).take 8 := by
            rw [h2b, h1d, h1c]
            congr 2
            omega
          rw [hb2]
          exact hO
        dsimp only
        cases hr3 : r2.rawSlice (readInt64 b2) with
        | panic =>
          exact absurd ⟨by omega, hOb⟩ (rawSlice_panic_inv r2 (readInt64 b2) hr3)
        | errNotEnough =>
          refine ⟨.error .ErrNotEnoughBytes, _, rfl, ?_, ?_, ?_, ?_⟩
          · dsimp only; rw [h2d, h1d]
          all_goals dsimp only; omega
        | ok b3 r3 =>
          obtain ⟨h3d, h3e, h3c, h3n, -, -, h3le⟩ :=
            rawSlice_ok_inv r2 (readInt64 b2) b3 r3 hr3
          have hlen3 : (r3.data.length : Int) = (r.data.length : Int) := by
            rw [h3d, h2d, h1d]
          dsimp only
          cases hr4 : r3.rawSlice (readInt64 b) with
          | panic =>
            exact absurd ⟨by omega, hLb⟩ (rawSlice_panic_inv r3 (readInt64 b) hr4)
          | errNotEnough =>
            refine ⟨.error .ErrNotEnoughBytes, r3, rfl, ?_, ?_, ?_, ?_⟩
            · rw [h3d, h2d, h1d]
            all_goals omega
          | ok b4 r4 =>
            obtain ⟨h4d, h4e, h4c, h4n, -, -, h4le⟩ :=
              rawSlice_ok_inv r3 (readInt64 b) b4 r4 hr4
            have hlen4 : (r4.data.length : Int) = (r.data.length : Int) := by
              rw [h4d, h3d, h2d, h1d]
            refine ⟨.ok b4, r4, ?_, ?_, ?_, ?_, ?_⟩
            · rfl
            · rw [h4d, h3d, h2d, h1d]
            all_goals omega

theorem C10_slicer_totality_witness :
    (0 : Int) ≤ 0 ∧
    ((0 : Int) ≤ (((fillInt64 0 ++ fillInt64 0 : List Nat).length : Nat) : Int)) ∧
    (∃ res r', ByteBlockSlicer.Slice ⟨fillInt64 0 ++ fillInt64 0, 0, none⟩ =
        some (res, r') ∧ r'.data = fillInt64 0 ++ fillInt64 0 ∧
      0 ≤ r'.numBytesSliced ∧
      r'.numBytesSliced ≤ ((fillInt64 0 ++ fillInt64 0 : List Nat).length : Int) ∧
      (0 : Int) ≤ r'.numBytesSliced) :=
  ⟨le_refl 0, by decide,
    C10_slicer_totality ⟨fillInt64 0 ++ fillInt64 0, 0, none⟩
      (by decide) (by decide) (by decide) (by decide)⟩
